import Mathlib

/-!
Shallow embedding of the kloth.me retrieval, fusion, filtering and
evaluation pipeline (backend/app/services/retriever.py,
backend/evaluation/metrics.py, backend/evaluation/evaluate.py).

Similarity scores, metric values and weights are modelled as rationals.
External collaborators (Embedding Provider, Vector Index, Product Store)
are modelled as function parameters, matching the contracts in the spec:
the Vector Index is a function from (query, limit, score_threshold) to a
hit list, the Product Store a function from product id to an optional
record.  Python dicts are modelled as association lists with insertion
order: assignment to a fresh key appends, assignment to an existing key
updates in place.  Python sorted(..., reverse=True) is a stable
descending sort, modelled by a stable insertion sort (stable sorts are
extensionally unique, so any stable implementation is faithful).
-/

namespace Kloth

/-- Product document stored in MongoDB (backend/app/models.py, Product).
The optional categories dict is modelled as an association list; Python
code only ever reads it through `res.categories or \x7b\x7d`, which
identifies None with the empty dict, so None is modelled as []. -/
structure Product where
  product_id : String
  description : String
  image_path : String
  categories : List (String × String)
deriving Repr, DecidableEq

/-- Individual product search result (backend/app/models.py,
ProductResult). -/
structure ProductResult where
  product_id : String
  description : String
  image_path : String
  score : ℚ
  categories : List (String × String)
deriving Repr, DecidableEq

/-- One hit returned by the Vector Index: the payload's product_id and
the similarity score (qdrant query_points result). -/
structure QdrantHit where
  product_id : String
  score : ℚ
deriving Repr, DecidableEq

/-! ### Python dict as an association list -/

/-- Lookup in an association list (first matching key). -/
def alookup (d : List (String × ℚ)) (k : String) : Option ℚ :=
  match d with
  | [] => none
  | (k0, v0) :: rest => if k0 = k then some v0 else alookup rest k

/-- Python dict assignment `d[k] = v`: update in place when the key is
present, append when it is fresh (dict insertion order). -/
def updateKey (d : List (String × ℚ)) (k : String) (v : ℚ) : List (String × ℚ) :=
  match d with
  | [] => [(k, v)]
  | (k0, v0) :: rest =>
      if k0 = k then (k0, v) :: rest else (k0, v0) :: updateKey rest k v

/-! ### Stable descending sort (Python sorted with reverse=True) -/

/-- Insert x into a descending-sorted list, after all elements with a
greater-or-equal key: this is exactly the stable placement. -/
def insertDesc {α : Type} (key : α → ℚ) (x : α) : List α → List α
  | [] => [x]
  | y :: ys => if key y < key x then x :: y :: ys else y :: insertDesc key x ys

/-- Stable descending sort by a rational key. -/
def sortDescBy {α : Type} (key : α → ℚ) (l : List α) : List α :=
  l.foldl (fun acc x => insertDesc key x acc) []

/-! ### Merging hits per product, keeping the maximum score
(retriever.py, search_by_text lines 134-141) -/

/-- Merge one Vector Index hit into the running candidate table:
`if product_id not in all_results or score > all_results[product_id][0]`
then assign. -/
def mergeHit (d : List (String × ℚ)) (h : QdrantHit) : List (String × ℚ) :=
  match alookup d h.product_id with
  | none => updateKey d h.product_id h.score
  | some s => if s < h.score then updateKey d h.product_id h.score else d

/-- Merge a whole stream of hits (the inner double loop of
search_by_text) into the candidate table. -/
def mergeAll (hits : List QdrantHit) : List (String × ℚ) :=
  hits.foldl mergeHit []

/-! ### Enrichment from the Product Store
(retriever.py, _convert_to_product_results) -/

/-- The Product Store: product id to optional product record
(database.get_products_by_ids, abstracted per the spec contract). -/
def Store : Type := String → Option Product

/-- _convert_to_product_results: sort the candidate table by score
descending, batch-fetch the products, and keep (in sorted order) each
candidate whose product resolves, carrying its merged score. -/
def convertToProductResults (store : Store) (d : List (String × ℚ)) : List ProductResult :=
  (sortDescBy (fun p => p.2) d).filterMap fun p =>
    (store p.1).map fun prod =>
      { product_id := prod.product_id
        description := prod.description
        image_path := prod.image_path
        score := p.2
        categories := prod.categories }

/-! ### Attribute filtering (retriever.py, _filter_results) -/

/-- Python regex word character for this ASCII data: alphanumeric or
underscore. -/
def isWordChar (c : Char) : Bool :=
  c.isAlphanum || c = '_'

/-- Wordness of the character at position i, out of range counting as
non-word. -/
def wordAt (l : List Char) (i : Nat) : Bool :=
  match l.get? i with
  | some c => isWordChar c
  | none => false

/-- The regex anchor \x5cb holds between positions i-1 and i exactly
when the wordness changes there. -/
def boundaryAt (l : List Char) (i : Nat) : Bool :=
  match i with
  | 0 => wordAt l 0
  | j + 1 => wordAt l j != wordAt l (j + 1)

/-- The needle occurs literally at position i of the haystack. -/
def occursAt (hay needle : List Char) (i : Nat) : Bool :=
  (hay.drop i).take needle.length = needle

/-- re.search of the escaped needle wrapped in word-boundary anchors
succeeds at position i. -/
def wbMatchAt (hay needle : List Char) (i : Nat) : Bool :=
  occursAt hay needle i && boundaryAt hay i && boundaryAt hay (i + needle.length)

/-- re.search of the word-boundary pattern anywhere in the haystack. -/
def wholeWordSearch (needle hay : String) : Bool :=
  (List.range (hay.data.length + 1)).any (wbMatchAt hay.data needle.data)

/-- The filter set: the Optional[Dict[str, str]] filters argument,
None modelled as the empty list (Python truthiness identifies them in
every use site: `if not filters`, `if filters`). -/
def Filters : Type := List (String × String)

/-- Python `if filters:` truthiness. -/
def hasFilters (f : Filters) : Bool :=
  !f.isEmpty

/-- Dict lookup for a filter key. -/
def filterValue (f : Filters) (k : String) : Option String :=
  match f with
  | [] => none
  | (k0, v0) :: rest => if k0 = k then some v0 else filterValue rest k

/-- Python `k in filters and filters[k]`: the key is present with a
truthy (non-empty) value. -/
def activeConstraint (f : Filters) (k : String) : Option String :=
  match filterValue f k with
  | none => none
  | some v => if v = "" then none else some v

/-- Python str.lower(), character-wise over the string data (this data
is ASCII, where str.lower agrees with the per-character lowering). -/
def pyLower (s : String) : String :=
  ⟨s.data.map Char.toLower⟩

/-- The lowercased description haystack (`(res.description or "").lower()`). -/
def descHaystack (r : ProductResult) : String :=
  pyLower r.description

/-- The lowercased category haystack
(`" ".join([str(v).lower() for v in cats.values()])`). -/
def catHaystack (r : ProductResult) : String :=
  String.intercalate " " (r.categories.map fun kv => pyLower kv.2)

/-- One constraint holds for a candidate: the lowercased value appears
as a whole word in the description haystack or the category haystack. -/
def constraintHolds (v : String) (r : ProductResult) : Bool :=
  wholeWordSearch (pyLower v) (descHaystack r) || wholeWordSearch (pyLower v) (catHaystack r)

/-- The per-candidate keep decision of _filter_results: the color check
sets keep to false on a miss, the category check runs only while keep is
still true, which is the logical AND of the present constraints. -/
def keepResult (f : Filters) (r : ProductResult) : Bool :=
  (match activeConstraint f "color" with
   | none => true
   | some v => constraintHolds v r) &&
  (match activeConstraint f "category" with
   | none => true
   | some v => constraintHolds v r)

/-- _filter_results: identity when the filter set is falsy, otherwise
keep exactly the candidates passing every present constraint, in order. -/
def filterResults (rs : List ProductResult) (f : Filters) : List ProductResult :=
  if hasFilters f then rs.filter (keepResult f) else rs

/-! ### search_by_text and search_by_image (retriever.py) -/

/-- The Vector Index for text queries: (query string, limit,
score_threshold) to hit list — query_points restricted to modality
text, with the embedding step folded into the oracle. -/
def TextIndex : Type := String → Nat → ℚ → List QdrantHit

/-- The Vector Index for the (single) image query: (limit,
score_threshold) to hit list. -/
def ImageIndex : Type := Nat → ℚ → List QdrantHit

/-- Python `q and q.strip()` truthiness: the string has at least one
non-whitespace character (str.strip default whitespace set). -/
def pyIsSpace (c : Char) : Bool :=
  c = ' ' || c = '\t' || c = '\n' || c = '\r' || c = '\x0b' || c = '\x0c'

/-- A query survives the `[q for q in queries if q and q.strip()]`
filter. -/
def validQuery (q : String) : Bool :=
  q.data.any (fun c => !pyIsSpace c)

/-- The surviving sub-queries. -/
def validQueries (queries : List String) : List String :=
  queries.filter validQuery

/-- `search_limit = top_k * 5 if filters else top_k`. -/
def searchLimit (top_k : Nat) (f : Filters) : Nat :=
  if hasFilters f then top_k * 5 else top_k

/-- search_by_text: discard empty/whitespace queries, short-circuit on
none left, query the index once per surviving query, max-merge the hits
per product, enrich, and — only when a filter set was supplied — filter
and truncate to top_k. -/
def searchByText (index : TextIndex) (store : Store) (queries : List String)
    (top_k : Nat) (f : Filters) (score_threshold : ℚ) : List ProductResult :=
  let valid := validQueries queries
  if valid.isEmpty then []
  else
    let limit := searchLimit top_k f
    let allResults := (valid.map (fun q => index q limit score_threshold)).flatten.foldl mergeHit []
    let initial := convertToProductResults store allResults
    if hasFilters f then (filterResults initial f).take top_k
    else initial

/-- The list of (query, limit) Vector Index calls search_by_text issues:
one query_points call per surviving query, none when no query survives. -/
def searchByTextCalls (queries : List String) (top_k : Nat) (f : Filters) :
    List (String × Nat) :=
  let valid := validQueries queries
  if valid.isEmpty then []
  else valid.map (fun q => (q, searchLimit top_k f))

/-- search_by_image: one index query, hit table built by dict
comprehension (last hit per product wins), enrich, and — only when a
filter set was supplied — filter and truncate to top_k. -/
def searchByImage (index : ImageIndex) (store : Store)
    (top_k : Nat) (f : Filters) (score_threshold : ℚ) : List ProductResult :=
  let limit := searchLimit top_k f
  let hits := index limit score_threshold
  let allResults := hits.foldl (fun d h => updateKey d h.product_id h.score) []
  let initial := convertToProductResults store allResults
  if hasFilters f then (filterResults initial f).take top_k
  else initial

/-! ### merge_results (retriever.py lines 209-279) -/

/-- The score dict of a result list, built by dict comprehension: first
occurrence fixes the key position, a later duplicate overwrites the
value. -/
def dictOf (rs : List ProductResult) : List (String × ℚ) :=
  rs.foldl (fun d r => updateKey d r.product_id r.score) []

/-- The keys of an association list, in order. -/
def keysOf (d : List (String × ℚ)) : List String :=
  d.map (fun p => p.1)

/-- The score a modality contributes for a product:
`dict.get(product_id, 0.0)`. -/
def modalityScore (rs : List ProductResult) (pid : String) : ℚ :=
  (alookup (dictOf rs) pid).getD 0

/-- merge_results: early return on two empty inputs, fused score
text_weight * textScore + (1 - text_weight) * imageScore over the union
of product ids (an absent modality contributing 0), stable descending
sort by fused score, enrichment from the Product Store, no truncation.
The iteration order of the Python id set is unspecified; the union is
enumerated here as text keys then fresh image keys, and only the
(unspecified in the source) relative order of fused-score ties depends
on that choice. -/
def mergeResults (store : Store) (text_results image_results : List ProductResult)
    (text_weight : ℚ) : List ProductResult :=
  if text_results.isEmpty && image_results.isEmpty then []
  else
    let image_weight := 1 - text_weight
    let text_dict := dictOf text_results
    let image_dict := dictOf image_results
    let all_product_ids :=
      keysOf text_dict ++ (keysOf image_dict).filter (fun k => alookup text_dict k = none)
    let merged_scores := all_product_ids.map fun pid =>
      (pid, text_weight * ((alookup text_dict pid).getD 0)
              + image_weight * ((alookup image_dict pid).getD 0))
    let sorted := sortDescBy (fun p => p.2) merged_scores
    sorted.filterMap fun p =>
      (store p.1).map fun prod =>
        { product_id := prod.product_id
          description := prod.description
          image_path := prod.image_path
          score := p.2
          categories := prod.categories }

/-! ### Metrics (backend/evaluation/metrics.py)

Ground truth is modelled as a function from query index to the set of
relevant product ids (a decidable membership list), matching
`ground_truth.get(str(query_id), set())`. -/

/-- Rank (1-based) of the first relevant item in a ranking, none when no
relevant item occurs. -/
def firstRelevantRank (ranked relevant : List String) : Option Nat :=
  match ranked with
  | [] => none
  | pid :: rest =>
      if pid ∈ relevant then some 1
      else (firstRelevantRank rest relevant).map (· + 1)

/-- The reciprocal rank a single query contributes to MRR: 1/rank of the
first relevant item, 0 when none is found. -/
def reciprocalRank (ranked relevant : List String) : ℚ :=
  match firstRelevantRank ranked relevant with
  | some r => 1 / (r : ℚ)
  | none => 0

/-- Sum of a list of rationals. -/
def qsum (l : List ℚ) : ℚ :=
  l.foldr (· + ·) 0

/-- Mean of a list of rationals, 0 on the empty list (np.mean guarded by
the Python code with `if ... else 0.0`). -/
def qmean (l : List ℚ) : ℚ :=
  if l.isEmpty then 0 else qsum l / (l.length : ℚ)

/-- calculate_mrr: mean over all queries of the reciprocal rank, every
query contributing (0 when nothing relevant is found). -/
def calculate_mrr (rankings : List (List String)) (ground_truth : Nat → List String) : ℚ :=
  qmean ((rankings.enum.map fun p => reciprocalRank p.2 (ground_truth p.1)))

/-- The value float(inf) as the average-rank result type: either a
finite rational or the infinite sentinel. -/
inductive AvgRank where
  | finite : ℚ → AvgRank
  | infinite : AvgRank
deriving Repr, DecidableEq

/-- calculate_average_rank: collect, per query, the 1-based rank of the
first relevant item when one exists; return the mean of the collected
ranks, or float(inf) when nothing was collected. -/
def calculate_average_rank (rankings : List (List String))
    (ground_truth : Nat → List String) : AvgRank :=
  let ranks := rankings.enum.filterMap fun p =>
    firstRelevantRank p.2 (ground_truth p.1)
  if ranks.isEmpty then AvgRank.infinite
  else AvgRank.finite (qsum (ranks.map fun r => (r : ℚ)) / (ranks.length : ℚ))

/-- calculate_category_accuracy: over the zip of rankings and expected
categories, skip queries with a falsy expected category or an empty
ranking; of the rest, the fraction whose top result maps to the expected
category (a product missing from the mapping never matches); 0 when
nothing was counted. -/
def calculate_category_accuracy (rankings : List (List String))
    (query_categories : List String)
    (product_categories : String → Option String) : ℚ :=
  let considered := (rankings.zip query_categories).filter fun p =>
    !(p.2 = "" || p.1.isEmpty)
  let matchCount := considered.countP fun p =>
    match p.1 with
    | [] => false
    | top :: _ => product_categories top = some p.2
  if considered.length = 0 then 0 else (matchCount : ℚ) / (considered.length : ℚ)

/-! ### Evaluation harness (backend/evaluation/evaluate.py) -/

/-- A benchmark query: its id, declared type, and expected product ids
(benchmark_queries.json entry; the query text / image path live inside
the execution oracle). -/
structure BenchQuery where
  query_id : String
  qtype : String
  expected : List String
deriving Repr, DecidableEq

/-- One per-query record of run_evaluation: the success shape
(query_id, type, expected, top_result, correct, num_results) or the
error shape (query_id, type, error message). -/
inductive PerQueryResult where
  | ok (query_id qtype : String) (expected : List String)
      (top_result : Option String) (correct : Bool) (num_results : Nat) : PerQueryResult
  | err (query_id qtype msg : String) : PerQueryResult
deriving Repr, DecidableEq

/-- The retrieval side of _execute_query, abstracted: a benchmark query
either raises (error message) or returns the ranked product ids. -/
def ExecOracle : Type := BenchQuery → Except String (List String)

/-- _execute_query: dispatch on the declared type, raising ValueError on
an unknown type before any search runs. -/
def executeQuery (oracle : ExecOracle) (q : BenchQuery) : Except String (List String) :=
  if q.qtype = "text" || q.qtype = "image" || q.qtype = "combined" then oracle q
  else Except.error ("Unknown query type: " ++ q.qtype)

/-- The accumulating state of the run_evaluation loop: the overall
rankings list, the per-type rankings dict, and the per-query records. -/
structure EvalState where
  all_rankings : List (List String)
  by_type : List (String × List (List String))
  per_query : List PerQueryResult
deriving Repr, DecidableEq

/-- `by_type = \x7b"text": [], "image": [], "combined": []\x7d`. -/
def initByType : List (String × List (List String)) :=
  [("text", []), ("image", []), ("combined", [])]

/-- `by_type[query_type].append(ranked_ids)`. -/
def appendByType (b : List (String × List (List String))) (k : String)
    (v : List String) : List (String × List (List String)) :=
  b.map fun p => if p.1 = k then (p.1, p.2 ++ [v]) else p

/-- `ranked_ids[0] in expected_ids if ranked_ids else False`. -/
def topCorrect (ranked expected : List String) : Bool :=
  match ranked with
  | [] => false
  | top :: _ => top ∈ expected

/-- One iteration of the run_evaluation loop: on success append the
ranking to the overall list and to its type bucket and record the
success shape; on an exception append the empty ranking to the overall
list only and record the error shape — the run continues either way. -/
def evalStep (oracle : ExecOracle) (st : EvalState) (q : BenchQuery) : EvalState :=
  match executeQuery oracle q with
  | Except.ok ranked =>
      { all_rankings := st.all_rankings ++ [ranked]
        by_type := appendByType st.by_type q.qtype ranked
        per_query := st.per_query ++
          [PerQueryResult.ok q.query_id q.qtype q.expected ranked.head?
            (topCorrect ranked q.expected) ranked.length] }
  | Except.error msg =>
      { all_rankings := st.all_rankings ++ [[]]
        by_type := st.by_type
        per_query := st.per_query ++ [PerQueryResult.err q.query_id q.qtype msg] }

/-- The execute stage of run_evaluation over the whole benchmark. -/
def runEvaluation (oracle : ExecOracle) (queries : List BenchQuery) : EvalState :=
  queries.foldl (evalStep oracle) { all_rankings := [], by_type := initByType, per_query := [] }

/-- The benchmark ground-truth store: query_id to primary_positives
(ground_truth.json). -/
def GtStore : Type := String → List String

/-- `gt_for_metrics`: overall ground truth indexed by position in the
full query list. -/
def gtForMetrics (gt : GtStore) (queries : List BenchQuery) (i : Nat) : List String :=
  match queries.get? i with
  | some q => gt q.query_id
  | none => []

/-- The per-type rankings list the harness feeds to the Metrics Engine
for one query type. -/
def typeRankings (st : EvalState) (qtype : String) : List (List String) :=
  match st.by_type.find? (fun p => p.1 = qtype) with
  | some p => p.2
  | none => []

/-- `type_gt`: per-type ground truth with fresh indices enumerating the
queries of that type. -/
def typeGt (gt : GtStore) (queries : List BenchQuery) (qtype : String) (i : Nat) : List String :=
  gtForMetrics gt (queries.filter (fun q => q.qtype = qtype)) i

/-! ### Baseline comparison (evaluate.py, compare_to_baseline) -/

/-- The per-metric classification printed by compare_to_baseline. -/
inductive MetricStatus where
  | regression : MetricStatus
  | improvement : MetricStatus
  | neutral : MetricStatus
deriving Repr, DecidableEq

/-- Classify one metric: delta = current - baseline; a regression when
delta < -0.05 * baseline, an improvement when delta > 0.05 * baseline,
neutral otherwise. -/
def classifyMetric (baseline current : ℚ) : MetricStatus :=
  let delta := current - baseline
  if delta < -(5 / 100) * baseline then MetricStatus.regression
  else if delta > (5 / 100) * baseline then MetricStatus.improvement
  else MetricStatus.neutral

/-- The regressions list accumulated by compare_to_baseline over
(metric name, baseline value, current value) rows. -/
def regressionsOf (rows : List (String × ℚ × ℚ)) : List String :=
  (rows.filter fun r => classifyMetric r.2.1 r.2.2 = MetricStatus.regression).map
    (fun r => r.1)

/-- The pass/fail verdict of compare_to_baseline: False when the
regressions list is non-empty, True otherwise. -/
def compareToBaseline (rows : List (String × ℚ × ℚ)) : Bool :=
  (regressionsOf rows).isEmpty

/-! ## Lemma layer: association lists and max-merging -/

/-- Combine an optional running maximum with a new score. -/
def someMax (o : Option ℚ) (s : ℚ) : Option ℚ :=
  match o with
  | none => some s
  | some a => some (max a s)

theorem alookup_updateKey (d : List (String × ℚ)) (k k2 : String) (v : ℚ) :
    alookup (updateKey d k v) k2 = if k = k2 then some v else alookup d k2 := by
  induction d with
  | nil => simp [updateKey, alookup]
  | cons hd tl ih =>
      obtain ⟨k0, v0⟩ := hd
      simp only [updateKey]
      by_cases h0 : k0 = k
      · subst h0
        simp only [if_pos rfl, alookup]
        by_cases h2 : k0 = k2 <;> simp [h2]
      · simp only [if_neg h0, alookup, ih]
        by_cases h2 : k0 = k2
        · subst h2
          have hk : ¬ k = k0 := fun h => h0 h.symm
          simp [hk]
        · simp [h2]

theorem alookup_mergeHit (d : List (String × ℚ)) (h : QdrantHit) (k : String) :
    alookup (mergeHit d h) k =
      if h.product_id = k then someMax (alookup d k) h.score else alookup d k := by
  unfold mergeHit
  cases hd : alookup d h.product_id with
  | none =>
      rw [alookup_updateKey]
      by_cases hk : h.product_id = k
      · subst hk; simp [hd, someMax]
      · simp [hk]
  | some a =>
      by_cases hlt : a < h.score
      · simp only [if_pos hlt, alookup_updateKey]
        by_cases hk : h.product_id = k
        · subst hk; simp [hd, someMax, max_eq_right (le_of_lt hlt)]
        · simp [hk]
      · simp only [if_neg hlt]
        by_cases hk : h.product_id = k
        · subst hk; simp [hd, someMax, max_eq_left (not_lt.mp hlt)]
        · simp [hk]

/-- The scores of the hits for one product, in hit order. -/
def scoresFor (hits : List QdrantHit) (k : String) : List ℚ :=
  (hits.filter (fun h => h.product_id = k)).map (fun h => h.score)

theorem alookup_foldl_mergeHit (hits : List QdrantHit) (d : List (String × ℚ)) (k : String) :
    alookup (hits.foldl mergeHit d) k = (scoresFor hits k).foldl someMax (alookup d k) := by
  induction hits generalizing d with
  | nil => rfl
  | cons h t ih =>
      simp only [List.foldl_cons, ih, scoresFor, List.filter_cons]
      by_cases hk : h.product_id = k
      · simp [hk, alookup_mergeHit, scoresFor]
      · simp [hk, alookup_mergeHit, scoresFor]

theorem foldl_someMax_some (l : List ℚ) (m : ℚ) :
    l.foldl someMax (some m) = some (l.foldl max m) := by
  induction l generalizing m with
  | nil => rfl
  | cons a t ih => simp [someMax, ih]

theorem foldl_max_mem (x : ℚ) (xs : List ℚ) : xs.foldl max x ∈ x :: xs := by
  induction xs generalizing x with
  | nil => simp
  | cons a t ih =>
      simp only [List.foldl_cons]
      have h := ih (max x a)
      rcases List.mem_cons.mp h with h1 | h1
      · rcases max_choice x a with hm | hm
        · rw [h1, hm]; exact List.mem_cons_self _ _
        · rw [h1, hm]; exact List.mem_cons_of_mem _ (List.mem_cons_self _ _)
      · exact List.mem_cons_of_mem _ (List.mem_cons_of_mem _ h1)

theorem le_self_foldl_max (xs : List ℚ) (m : ℚ) : m ≤ xs.foldl max m := by
  induction xs generalizing m with
  | nil => simp
  | cons b t ih => exact le_trans (le_max_left m b) (ih (max m b))

theorem le_foldl_max (xs : List ℚ) : ∀ x y : ℚ, y ∈ x :: xs → y ≤ xs.foldl max x := by
  induction xs with
  | nil => intro x y hy; simp at hy; simp [hy]
  | cons a t ih =>
      intro x y hy
      simp only [List.foldl_cons]
      rcases List.mem_cons.mp hy with h1 | h1
      · subst h1; exact le_trans (le_max_left y a) (le_self_foldl_max t _)
      · rcases List.mem_cons.mp h1 with h2 | h2
        · subst h2; exact le_trans (le_max_right x y) (le_self_foldl_max t _)
        · exact ih (max x a) y (List.mem_cons_of_mem _ h2)

theorem alookup_mergeAll (hits : List QdrantHit) (k : String) :
    alookup (mergeAll hits) k =
      match scoresFor hits k with
      | [] => none
      | x :: xs => some (xs.foldl max x) := by
  have h := alookup_foldl_mergeHit hits [] k
  have hnil : alookup ([] : List (String × ℚ)) k = none := rfl
  rw [hnil] at h
  rw [mergeAll, h]
  cases scoresFor hits k with
  | nil => rfl
  | cons x xs => simp [someMax, foldl_someMax_some]

theorem mem_scoresFor (hits : List QdrantHit) (k : String) (s : ℚ) :
    s ∈ scoresFor hits k ↔ ∃ h ∈ hits, h.product_id = k ∧ h.score = s := by
  simp only [scoresFor, List.mem_map, List.mem_filter, decide_eq_true_eq]
  constructor
  · rintro ⟨h, ⟨hmem, hpid⟩, hscore⟩
    exact ⟨h, hmem, hpid, hscore⟩
  · rintro ⟨h, hmem, hpid, hscore⟩
    exact ⟨h, ⟨hmem, hpid⟩, hscore⟩

instance : Std.Commutative (α := ℚ) max := ⟨fun a b => max_comm a b⟩
instance : Std.Associative (α := ℚ) max := ⟨fun a b c => max_assoc a b c⟩

theorem someMax_right_comm (o : Option ℚ) (a b : ℚ) :
    someMax (someMax o a) b = someMax (someMax o b) a := by
  cases o <;> simp [someMax, max_comm, max_left_comm, max_assoc]

instance : RightCommutative someMax :=
  ⟨fun o a b => someMax_right_comm o a b⟩

/-! ## Claim theorems -/

/-- C3: in search_by_text the merged candidate table keeps, for every
product, the maximum of the scores observed for it across the sub-query
hit stream — its merged score is a hit score and bounds every hit score
for that product, so never a sum or an average of distinct hits — and
that merged score is invariant under any reordering of the hit stream,
hence independent of the order in which sub-queries are processed. -/
theorem c3_merge_keeps_max_score :
    (∀ (hits : List QdrantHit) (pid : String) (s : ℚ),
        alookup (mergeAll hits) pid = some s ↔
          ((∃ h ∈ hits, h.product_id = pid ∧ h.score = s) ∧
            ∀ h ∈ hits, h.product_id = pid → h.score ≤ s)) ∧
    (∀ (hits hits2 : List QdrantHit) (pid : String), hits.Perm hits2 →
        alookup (mergeAll hits) pid = alookup (mergeAll hits2) pid) := by
  constructor
  · intro hits pid s
    rw [alookup_mergeAll]
    cases hs : scoresFor hits pid with
    | nil =>
        simp only [reduceCtorEq, false_iff, not_and]
        rintro ⟨h, hmem, hpid, hscore⟩
        have : h.score ∈ scoresFor hits pid :=
          (mem_scoresFor hits pid h.score).mpr ⟨h, hmem, hpid, rfl⟩
        rw [hs] at this
        simp at this
    | cons x xs =>
        constructor
        · intro heq
          have hfs : xs.foldl max x = s := by injection heq
          have hmem : s ∈ scoresFor hits pid := by
            rw [hs, ← hfs]; exact foldl_max_mem x xs
          refine ⟨(mem_scoresFor hits pid s).mp hmem, ?_⟩
          intro h hm hpid
          have : h.score ∈ scoresFor hits pid :=
            (mem_scoresFor hits pid h.score).mpr ⟨h, hm, hpid, rfl⟩
          rw [hs] at this
          rw [← hfs]
          exact le_foldl_max xs x h.score this
        · rintro ⟨⟨h, hmem, hpid, hscore⟩, hub⟩
          have hsmem : s ∈ scoresFor hits pid :=
            (mem_scoresFor hits pid s).mpr ⟨h, hmem, hpid, hscore⟩
          have hfmem : xs.foldl max x ∈ scoresFor hits pid := by
            rw [hs]; exact foldl_max_mem x xs
          obtain ⟨h2, hm2, hp2, hs2⟩ := (mem_scoresFor hits pid _).mp hfmem
          have h1 : xs.foldl max x ≤ s := hs2 ▸ hub h2 hm2 hp2
          have h2v : s ≤ xs.foldl max x := by
            rw [hs] at hsmem
            exact le_foldl_max xs x s hsmem
          show some (List.foldl max x xs) = some s
          rw [le_antisymm h1 h2v]
  · intro hits hits2 pid hperm
    have h1 := alookup_foldl_mergeHit hits [] pid
    have h2 := alookup_foldl_mergeHit hits2 [] pid
    have hnil : alookup ([] : List (String × ℚ)) pid = none := rfl
    rw [hnil] at h1 h2
    rw [mergeAll, h1, mergeAll, h2]
    have hp : (scoresFor hits pid).Perm (scoresFor hits2 pid) :=
      (hperm.filter _).map _
    exact hp.foldl_eq none

/-- Witness for C3: a product hit by two sub-queries with scores 0.8 and
0.6 has merged score 0.8, in either processing order. -/
theorem c3_merge_keeps_max_score_witness :
    alookup (mergeAll [⟨"p", 4/5⟩, ⟨"p", 3/5⟩]) "p" = some (4/5) ∧
    alookup (mergeAll [⟨"p", 4/5⟩, ⟨"p", 3/5⟩]) "p" =
      alookup (mergeAll [⟨"p", 3/5⟩, ⟨"p", 4/5⟩]) "p" := by
  refine ⟨?_, c3_merge_keeps_max_score.2 _ _ "p" (List.Perm.swap _ _ _)⟩
  refine (c3_merge_keeps_max_score.1 _ "p" (4/5)).mpr
    ⟨⟨⟨"p", 4/5⟩, by simp, rfl, rfl⟩, ?_⟩
  intro h hm hpid
  rcases List.mem_cons.mp hm with h1 | h1
  · rw [h1]
  · have h2 : h = ⟨"p", 3/5⟩ := by simpa using h1
    rw [h2]
    norm_num

/-! ## Length bounds for the retrieval pipeline -/

theorem length_insertDesc {α : Type} (key : α → ℚ) (x : α) (l : List α) :
    (insertDesc key x l).length = l.length + 1 := by
  induction l with
  | nil => rfl
  | cons y ys ih =>
      unfold insertDesc
      by_cases h : key y < key x
      · simp [h]
      · simp [h, ih]

theorem length_sortDescBy {α : Type} (key : α → ℚ) (l : List α) :
    (sortDescBy key l).length = l.length := by
  suffices h : ∀ acc : List α, (l.foldl (fun a x => insertDesc key x a) acc).length
      = acc.length + l.length by
    simpa using h []
  induction l with
  | nil => intro acc; simp
  | cons x xs ih =>
      intro acc
      simp only [List.foldl_cons]
      rw [ih (insertDesc key x acc), length_insertDesc]
      simp only [List.length_cons]
      omega

theorem length_convertToProductResults_le (store : Store) (d : List (String × ℚ)) :
    (convertToProductResults store d).length ≤ d.length := by
  unfold convertToProductResults
  calc ((sortDescBy (fun p => p.2) d).filterMap _).length
      ≤ (sortDescBy (fun p => p.2) d).length := List.length_filterMap_le _ _
    _ = d.length := length_sortDescBy _ d

theorem length_updateKey_le (d : List (String × ℚ)) (k : String) (v : ℚ) :
    (updateKey d k v).length ≤ d.length + 1 := by
  induction d with
  | nil => simp [updateKey]
  | cons hd tl ih =>
      obtain ⟨k0, v0⟩ := hd
      unfold updateKey
      by_cases h : k0 = k
      · simp [h]
      · simp only [if_neg h, List.length_cons]
        omega

theorem length_mergeHit_le (d : List (String × ℚ)) (h : QdrantHit) :
    (mergeHit d h).length ≤ d.length + 1 := by
  unfold mergeHit
  cases alookup d h.product_id with
  | none => exact length_updateKey_le d _ _
  | some a =>
      by_cases hlt : a < h.score
      · simpa [hlt] using length_updateKey_le d h.product_id h.score
      · simp [hlt]

theorem length_foldl_mergeHit_le (hits : List QdrantHit) (d : List (String × ℚ)) :
    (hits.foldl mergeHit d).length ≤ d.length + hits.length := by
  induction hits generalizing d with
  | nil => simp
  | cons h t ih =>
      simp only [List.foldl_cons, List.length_cons]
      calc (t.foldl mergeHit (mergeHit d h)).length
          ≤ (mergeHit d h).length + t.length := ih (mergeHit d h)
        _ ≤ d.length + 1 + t.length := by
            have := length_mergeHit_le d h
            omega
        _ = d.length + (t.length + 1) := by omega

theorem length_foldl_updateKey_le (hits : List QdrantHit) (d : List (String × ℚ)) :
    (hits.foldl (fun d2 h => updateKey d2 h.product_id h.score) d).length
      ≤ d.length + hits.length := by
  induction hits generalizing d with
  | nil => simp
  | cons h t ih =>
      simp only [List.foldl_cons, List.length_cons]
      calc (t.foldl _ (updateKey d h.product_id h.score)).length
          ≤ (updateKey d h.product_id h.score).length + t.length := ih _
        _ ≤ d.length + 1 + t.length := by
            have := length_updateKey_le d h.product_id h.score
            omega
        _ = d.length + (t.length + 1) := by omega

theorem length_flatten_le {α : Type} (L : List (List α)) (n : Nat)
    (hl : ∀ l ∈ L, l.length ≤ n) : L.flatten.length ≤ L.length * n := by
  induction L with
  | nil => simp
  | cons l t ih =>
      simp only [List.flatten_cons, List.length_append, List.length_cons]
      have h1 : l.length ≤ n := hl l (List.mem_cons_self _ _)
      have h2 : t.flatten.length ≤ t.length * n :=
        ih (fun l2 hm => hl l2 (List.mem_cons_of_mem _ hm))
      calc l.length + t.flatten.length ≤ n + t.length * n := by omega
        _ = (t.length + 1) * n := by ring

/-! ## C1: truncation -/

/-- A concrete text Vector Index honouring its limit: sub-query "a"
hits product p1, sub-query "b" hits product p2. -/
def c1Index : TextIndex := fun q lim _ =>
  (if q = "a" then [⟨"p1", 2⟩] else if q = "b" then [⟨"p2", 1⟩] else []).take lim

/-- A concrete image Vector Index honouring its limit. -/
def c1ImageIndex : ImageIndex := fun lim _ =>
  [(⟨"ip", 1⟩ : QdrantHit)].take lim

/-- A total Product Store: every product id resolves. -/
def totalStore : Store := fun pid => some ⟨pid, "desc", "img", []⟩

/-- C1 counterexample: search_by_text with two surviving sub-queries,
top_k = 1 and no filter set returns 2 results — the merged table is
returned untruncated on the no-filter path, so the claimed bound of
top_k results fails without filters. -/
theorem c1_counterexample :
    (searchByText c1Index totalStore ["a", "b"] 1 [] 0).length = 2 ∧
    ¬ ((searchByText c1Index totalStore ["a", "b"] 1 [] 0).length ≤ 1) := by
  decide

/-- C1 amended: when a filter set is supplied, search_by_text returns at
most top_k results; without filters it returns the whole merged table,
bounded only by (number of surviving sub-queries) × top_k under the
Vector Index limit contract; search_by_image returns at most top_k
results whether or not a filter set is supplied. -/
theorem c1_truncation_amended
    (index : TextIndex) (iidx : ImageIndex) (store : Store)
    (queries : List String) (top_k : Nat) (f : Filters) (t : ℚ)
    (hidx : ∀ q lim s, (index q lim s).length ≤ lim)
    (hiidx : ∀ lim s, (iidx lim s).length ≤ lim) :
    (hasFilters f = true → (searchByText index store queries top_k f t).length ≤ top_k) ∧
    (searchByText index store queries top_k f t).length
      ≤ (validQueries queries).length * top_k ∧
    (searchByImage iidx store top_k f t).length ≤ top_k := by
  have himg : (searchByImage iidx store top_k f t).length ≤ top_k := by
    unfold searchByImage
    by_cases hf : hasFilters f
    · simp only [hf, if_true]
      exact List.length_take_le _ _
    · simp only [hf, if_false, Bool.false_eq_true]
      calc (convertToProductResults store _).length
          ≤ ((iidx (searchLimit top_k f) t).foldl
              (fun d h => updateKey d h.product_id h.score) []).length :=
            length_convertToProductResults_le _ _
        _ ≤ ([] : List (String × ℚ)).length + (iidx (searchLimit top_k f) t).length :=
            length_foldl_updateKey_le _ _
        _ ≤ searchLimit top_k f := by simpa using hiidx (searchLimit top_k f) t
        _ = top_k := by simp [searchLimit, hf]
  refine ⟨?_, ?_, himg⟩
  · intro hf
    unfold searchByText
    by_cases hv : (validQueries queries).isEmpty
    · simp [hv]
    · simp only [hv, if_false, hf, if_true, Bool.false_eq_true]
      exact List.length_take_le _ _
  · unfold searchByText
    by_cases hv : (validQueries queries).isEmpty
    · simp [hv]
    · simp only [hv, if_false, Bool.false_eq_true]
      have hvpos : 1 ≤ (validQueries queries).length := by
        cases hq : validQueries queries with
        | nil => rw [hq] at hv; simp at hv
        | cons a l => simp [hq]
      have hbase : (convertToProductResults store
          (((validQueries queries).map
            (fun q => index q (searchLimit top_k f) t)).flatten.foldl mergeHit [])).length
          ≤ (validQueries queries).length * searchLimit top_k f := by
        calc (convertToProductResults store _).length
            ≤ (((validQueries queries).map
                (fun q => index q (searchLimit top_k f) t)).flatten.foldl mergeHit []).length :=
              length_convertToProductResults_le _ _
          _ ≤ ([] : List (String × ℚ)).length
              + ((validQueries queries).map
                  (fun q => index q (searchLimit top_k f) t)).flatten.length :=
              length_foldl_mergeHit_le _ _
          _ = ((validQueries queries).map
                  (fun q => index q (searchLimit top_k f) t)).flatten.length := by
              simp
          _ ≤ ((validQueries queries).map
                  (fun q => index q (searchLimit top_k f) t)).length
                * searchLimit top_k f := by
              refine length_flatten_le _ (searchLimit top_k f) ?_
              intro l hm
              obtain ⟨q, _, hql⟩ := List.mem_map.mp hm
              rw [← hql]
              exact hidx q _ t
          _ = (validQueries queries).length * searchLimit top_k f := by
              rw [List.length_map]
      by_cases hf : hasFilters f
      · simp only [hf, if_true]
        calc ((filterResults _ f).take top_k).length
            ≤ top_k := List.length_take_le _ _
          _ ≤ (validQueries queries).length * top_k :=
            Nat.le_mul_of_pos_left top_k hvpos
      · simp only [hf, if_false, Bool.false_eq_true]
        have hsl : searchLimit top_k f = top_k := by simp [searchLimit, hf]
        rw [hsl] at hbase ⊢
        exact hbase

/-- Witness for C1 amended, at a concrete index, store, query list and
filter set. -/
theorem c1_truncation_amended_witness :
    (hasFilters [("color", "red")] = true →
      (searchByText c1Index totalStore ["a", "b"] 1 [("color", "red")] 0).length ≤ 1) ∧
    (searchByText c1Index totalStore ["a", "b"] 1 [("color", "red")] 0).length
      ≤ (validQueries ["a", "b"]).length * 1 ∧
    (searchByImage c1ImageIndex totalStore 1 [("color", "red")] 0).length ≤ 1 :=
  c1_truncation_amended c1Index c1ImageIndex totalStore ["a", "b"] 1
    [("color", "red")] 0
    (fun _ _ _ => List.length_take_le _ _)
    (fun _ _ => List.length_take_le _ _)

/-! ## C7: empty queries short-circuit -/

/-- C7: when every query string is empty or whitespace-only (which
includes the empty query list), search_by_text returns the empty list,
the list of Vector Index calls it issues is empty, and the result does
not depend on the Vector Index or the Product Store at all. -/
theorem c7_empty_query_short_circuit
    (index : TextIndex) (store : Store) (queries : List String)
    (top_k : Nat) (f : Filters) (t : ℚ)
    (hq : ∀ q ∈ queries, validQuery q = false) :
    searchByText index store queries top_k f t = [] ∧
    searchByTextCalls queries top_k f = [] ∧
    (∀ (index2 : TextIndex) (store2 : Store),
      searchByText index2 store2 queries top_k f t = []) := by
  have hv : validQueries queries = [] := by
    unfold validQueries
    rw [List.filter_eq_nil_iff]
    intro q hm
    simpa using hq q hm
  refine ⟨?_, ?_, ?_⟩
  · simp [searchByText, hv]
  · simp [searchByTextCalls, hv]
  · intro index2 store2
    simp [searchByText, hv]

/-- Witness for C7: a whitespace-only query list and the empty query
list both short-circuit at a concrete index and store. -/
theorem c7_empty_query_short_circuit_witness :
    searchByText c1Index totalStore ["   ", ""] 5 [] 0 = [] ∧
    searchByTextCalls ["   ", ""] 5 [] = [] ∧
    searchByText c1Index totalStore [] 5 [] 0 = [] :=
  ⟨(c7_empty_query_short_circuit c1Index totalStore ["   ", ""] 5 [] 0 (by decide)).1,
   (c7_empty_query_short_circuit c1Index totalStore ["   ", ""] 5 [] 0 (by decide)).2.1,
   (c7_empty_query_short_circuit c1Index totalStore [] 5 [] 0 (by simp)).1⟩

/-! ## Membership bounds for the retrieval pipeline -/

theorem mem_updateKey (d : List (String × ℚ)) (k : String) (v : ℚ)
    (p : String × ℚ) (hp : p ∈ updateKey d k v) : p ∈ d ∨ p = (k, v) := by
  induction d with
  | nil =>
      right
      simpa [updateKey] using hp
  | cons hd tl ih =>
      obtain ⟨k0, v0⟩ := hd
      unfold updateKey at hp
      by_cases h : k0 = k
      · rw [if_pos h] at hp
        rcases List.mem_cons.mp hp with h1 | h1
        · right; rw [h1, h]
        · left; exact List.mem_cons_of_mem _ h1
      · rw [if_neg h] at hp
        rcases List.mem_cons.mp hp with h1 | h1
        · left; rw [h1]; exact List.mem_cons_self _ _
        · rcases ih h1 with h2 | h2
          · left; exact List.mem_cons_of_mem _ h2
          · right; exact h2

theorem mem_mergeHit (d : List (String × ℚ)) (h : QdrantHit)
    (p : String × ℚ) (hp : p ∈ mergeHit d h) :
    p ∈ d ∨ p = (h.product_id, h.score) := by
  unfold mergeHit at hp
  cases hd : alookup d h.product_id with
  | none =>
      rw [hd] at hp
      exact mem_updateKey d _ _ p hp
  | some a =>
      rw [hd] at hp
      have hp2 : p ∈ (if a < h.score then updateKey d h.product_id h.score else d) := hp
      by_cases hlt : a < h.score
      · rw [if_pos hlt] at hp2
        exact mem_updateKey d _ _ p hp2
      · rw [if_neg hlt] at hp2
        left; exact hp2

theorem mem_foldl_mergeHit (hits : List QdrantHit) (d : List (String × ℚ))
    (p : String × ℚ) (hp : p ∈ hits.foldl mergeHit d) :
    p ∈ d ∨ ∃ h ∈ hits, p = (h.product_id, h.score) := by
  induction hits generalizing d with
  | nil => left; simpa using hp
  | cons h t ih =>
      simp only [List.foldl_cons] at hp
      rcases ih (mergeHit d h) hp with h1 | h1
      · rcases mem_mergeHit d h p h1 with h2 | h2
        · left; exact h2
        · right; exact ⟨h, List.mem_cons_self _ _, h2⟩
      · obtain ⟨h2, hm, he⟩ := h1
        right; exact ⟨h2, List.mem_cons_of_mem _ hm, he⟩

theorem mem_foldl_updateKey (hits : List QdrantHit) (d : List (String × ℚ))
    (p : String × ℚ)
    (hp : p ∈ hits.foldl (fun d2 h => updateKey d2 h.product_id h.score) d) :
    p ∈ d ∨ ∃ h ∈ hits, p = (h.product_id, h.score) := by
  induction hits generalizing d with
  | nil => left; simpa using hp
  | cons h t ih =>
      simp only [List.foldl_cons] at hp
      rcases ih (updateKey d h.product_id h.score) hp with h1 | h1
      · rcases mem_updateKey d _ _ p h1 with h2 | h2
        · left; exact h2
        · right; exact ⟨h, List.mem_cons_self _ _, h2⟩
      · obtain ⟨h2, hm, he⟩ := h1
        right; exact ⟨h2, List.mem_cons_of_mem _ hm, he⟩

theorem insertDesc_perm {α : Type} (key : α → ℚ) (x : α) (l : List α) :
    (insertDesc key x l).Perm (x :: l) := by
  induction l with
  | nil => simp [insertDesc]
  | cons y ys ih =>
      unfold insertDesc
      by_cases h : key y < key x
      · simp [h]
      · rw [if_neg h]
        exact (List.Perm.cons y ih).trans (List.Perm.swap x y ys)

theorem sortDescBy_perm {α : Type} (key : α → ℚ) (l : List α) :
    (sortDescBy key l).Perm l := by
  suffices h : ∀ acc : List α,
      (l.foldl (fun a x => insertDesc key x a) acc).Perm (acc ++ l) by
    simpa using h []
  induction l with
  | nil => intro acc; simp
  | cons x xs ih =>
      intro acc
      simp only [List.foldl_cons]
      refine ((ih _).trans ((insertDesc_perm key x acc).append_right xs)).trans ?_
      simpa using (@List.perm_middle _ x acc xs).symm

theorem mem_convertToProductResults (store : Store) (d : List (String × ℚ))
    (r : ProductResult) (hr : r ∈ convertToProductResults store d) :
    ∃ p ∈ d, r.score = p.2 := by
  unfold convertToProductResults at hr
  obtain ⟨p, hp, hf⟩ := List.mem_filterMap.mp hr
  obtain ⟨prod, _, hmk⟩ := Option.map_eq_some'.mp hf
  refine ⟨p, (sortDescBy_perm (fun p2 : String × ℚ => p2.2) d).subset hp, ?_⟩
  rw [← hmk]

/-- Every result of search_by_text carries the score of one of the
Vector Index hits of one of the surviving sub-queries. -/
theorem score_of_mem_searchByText (index : TextIndex) (store : Store)
    (queries : List String) (top_k : Nat) (f : Filters) (t : ℚ)
    (r : ProductResult) (hr : r ∈ searchByText index store queries top_k f t) :
    ∃ q ∈ validQueries queries,
      ∃ h ∈ index q (searchLimit top_k f) t, r.score = h.score := by
  unfold searchByText at hr
  by_cases hv : (validQueries queries).isEmpty
  · simp [hv] at hr
  · simp only [hv, if_false, Bool.false_eq_true] at hr
    have hinit : r ∈ convertToProductResults store
        (((validQueries queries).map
          (fun q => index q (searchLimit top_k f) t)).flatten.foldl mergeHit []) := by
      by_cases hf2 : hasFilters f
      · simp only [hf2, if_true] at hr
        have h1 := List.Sublist.mem hr (List.take_sublist _ _)
        unfold filterResults at h1
        rw [if_pos hf2] at h1
        exact List.mem_of_mem_filter h1
      · simpa only [hf2, if_false, Bool.false_eq_true] using hr
    obtain ⟨p, hp, hscore⟩ := mem_convertToProductResults _ _ _ hinit
    rcases mem_foldl_mergeHit _ _ _ hp with h1 | ⟨h, hmem, he⟩
    · simp at h1
    · obtain ⟨l, hl, hhl⟩ := List.mem_flatten.mp hmem
      obtain ⟨q, hq, hql⟩ := List.mem_map.mp hl
      refine ⟨q, hq, h, ?_, ?_⟩
      · rw [hql]; exact hhl
      · rw [hscore, he]

/-- Every result of search_by_image carries the score of one of the
Vector Index hits. -/
theorem score_of_mem_searchByImage (iidx : ImageIndex) (store : Store)
    (top_k : Nat) (f : Filters) (t : ℚ)
    (r : ProductResult) (hr : r ∈ searchByImage iidx store top_k f t) :
    ∃ h ∈ iidx (searchLimit top_k f) t, r.score = h.score := by
  unfold searchByImage at hr
  have hinit : r ∈ convertToProductResults store
      ((iidx (searchLimit top_k f) t).foldl
        (fun d h => updateKey d h.product_id h.score) []) := by
    by_cases hf2 : hasFilters f
    · simp only [hf2, if_true] at hr
      have h1 := List.Sublist.mem hr (List.take_sublist _ _)
      unfold filterResults at h1
      rw [if_pos hf2] at h1
      exact List.mem_of_mem_filter h1
    · simpa only [hf2, if_false, Bool.false_eq_true] using hr
  obtain ⟨p, hp, hscore⟩ := mem_convertToProductResults _ _ _ hinit
  rcases mem_foldl_updateKey _ _ _ hp with h1 | ⟨h, hmem, he⟩
  · simp at h1
  · exact ⟨h, hmem, by rw [hscore, he]⟩

/-! ## C6: threshold invariant -/

/-- C6: under the Vector Index contract that every hit scores at least
the requested threshold t and at most the 1.01 cap, every score
returned by search_by_text and by search_by_image lies in [t, 1.01]:
max-merging, enrichment, attribute filtering and truncation never leave
that interval. -/
theorem c6_threshold_invariant (index : TextIndex) (iidx : ImageIndex)
    (store : Store) (queries : List String) (top_k : Nat) (f : Filters) (t : ℚ)
    (hidx : ∀ q lim, ∀ h ∈ index q lim t, t ≤ h.score ∧ h.score ≤ 101 / 100)
    (hiidx : ∀ lim, ∀ h ∈ iidx lim t, t ≤ h.score ∧ h.score ≤ 101 / 100) :
    (∀ r ∈ searchByText index store queries top_k f t,
      t ≤ r.score ∧ r.score ≤ 101 / 100) ∧
    (∀ r ∈ searchByImage iidx store top_k f t,
      t ≤ r.score ∧ r.score ≤ 101 / 100) := by
  constructor
  · intro r hr
    obtain ⟨q, _, h, hm, hs⟩ :=
      score_of_mem_searchByText index store queries top_k f t r hr
    rw [hs]
    exact hidx q _ h hm
  · intro r hr
    obtain ⟨h, hm, hs⟩ :=
      score_of_mem_searchByImage iidx store top_k f t r hr
    rw [hs]
    exact hiidx _ h hm

/-- A text Vector Index for the C6 witness whose only hit scores 1. -/
def c6Index : TextIndex := fun q lim _ =>
  (if q = "a" then [(⟨"p1", 1⟩ : QdrantHit)] else []).take lim

/-- An image Vector Index for the C6 witness whose only hit scores 1. -/
def c6ImageIndex : ImageIndex := fun lim _ =>
  [(⟨"ip", 1⟩ : QdrantHit)].take lim

/-- Witness for C6: at threshold 0, the concrete result produced by the
concrete index has its score inside [0, 1.01]. -/
theorem c6_threshold_invariant_witness :
    (0 : ℚ) ≤ (ProductResult.mk "p1" "desc" "img" 1 []).score ∧
    (ProductResult.mk "p1" "desc" "img" 1 []).score ≤ 101 / 100 :=
  (c6_threshold_invariant c6Index c6ImageIndex totalStore ["a"] 1 [] 0
    (by
      intro q lim h hm
      have h2 := List.Sublist.mem hm (List.take_sublist _ _)
      by_cases hq : q = "a"
      · rw [if_pos hq] at h2
        have h3 : h = ⟨"p1", 1⟩ := by simpa using h2
        rw [h3]
        exact ⟨by norm_num, by norm_num⟩
      · rw [if_neg hq] at h2
        simp at h2)
    (by
      intro lim h hm
      have h2 := List.Sublist.mem hm (List.take_sublist _ _)
      have h3 : h = ⟨"ip", 1⟩ := by simpa using h2
      rw [h3]
      exact ⟨by norm_num, by norm_num⟩)).1
    (ProductResult.mk "p1" "desc" "img" 1 []) (by decide)

/-! ## C5: whole-word attribute filtering -/

/-- A candidate described as "a red dress". -/
def redDress : ProductResult := ⟨"p1", "a red dress", "img1", 1, []⟩

/-- A candidate described as "bred leather jacket". -/
def bredJacket : ProductResult := ⟨"p2", "bred leather jacket", "img2", 1, []⟩

/-- C5: with a truthy filter set, a candidate survives _filter_results
exactly when it is in the input and passes keepResult — the AND of the
supplied constraints, each matched as a lowercased word-boundary
occurrence in the description or category haystack.  Concretely, filter
color=red keeps the candidate described "a red dress", rejects the one
described "bred leather jacket" (substring without a word boundary),
and with both color and category supplied both must hold. -/
theorem c5_filter_whole_word :
    (∀ (rs : List ProductResult) (f : Filters) (r : ProductResult),
        hasFilters f = true →
        (r ∈ filterResults rs f ↔ r ∈ rs ∧ keepResult f r = true)) ∧
    filterResults [redDress, bredJacket] [("color", "red")] = [redDress] ∧
    keepResult [("color", "red"), ("category", "dress")] redDress = true ∧
    keepResult [("color", "red"), ("category", "hat")] redDress = false := by
  refine ⟨?_, by decide, by decide, by decide⟩
  intro rs f r hf
  unfold filterResults
  rw [if_pos hf]
  simp [List.mem_filter]

/-- Witness for C5 at a concrete candidate list and filter set. -/
theorem c5_filter_whole_word_witness :
    hasFilters [("color", "red")] = true ∧
    (redDress ∈ filterResults [redDress, bredJacket] [("color", "red")] ↔
      redDress ∈ [redDress, bredJacket] ∧
        keepResult [("color", "red")] redDress = true) :=
  ⟨by decide,
   c5_filter_whole_word.1 [redDress, bredJacket] [("color", "red")] redDress (by decide)⟩

/-! ## Sortedness and dictionary-key lemmas -/

theorem insertDesc_pairwise {α : Type} (key : α → ℚ) (x : α) (l : List α)
    (h : l.Pairwise (fun a b => key b ≤ key a)) :
    (insertDesc key x l).Pairwise (fun a b => key b ≤ key a) := by
  induction l with
  | nil => simp [insertDesc]
  | cons y ys ih =>
      unfold insertDesc
      rcases List.pairwise_cons.mp h with ⟨hy, hys⟩
      by_cases hlt : key y < key x
      · rw [if_pos hlt]
        refine List.pairwise_cons.mpr ⟨?_, h⟩
        intro z hz
        rcases List.mem_cons.mp hz with h1 | h1
        · rw [h1]; exact le_of_lt hlt
        · exact le_trans (hy z h1) (le_of_lt hlt)
      · rw [if_neg hlt]
        refine List.pairwise_cons.mpr ⟨?_, ih hys⟩
        intro z hz
        have hz2 := (insertDesc_perm key x ys).subset hz
        rcases List.mem_cons.mp hz2 with h1 | h1
        · rw [h1]; exact not_lt.mp hlt
        · exact hy z h1

theorem sortDescBy_pairwise {α : Type} (key : α → ℚ) (l : List α) :
    (sortDescBy key l).Pairwise (fun a b => key b ≤ key a) := by
  suffices h : ∀ acc : List α, acc.Pairwise (fun a b => key b ≤ key a) →
      (l.foldl (fun a x => insertDesc key x a) acc).Pairwise
        (fun a b => key b ≤ key a) by
    exact h [] (by simp)
  induction l with
  | nil => intro acc hacc; simpa using hacc
  | cons x xs ih =>
      intro acc hacc
      simp only [List.foldl_cons]
      exact ih _ (insertDesc_pairwise key x acc hacc)

theorem pairwise_filterMap {α β : Type} (f : α → Option β)
    (R : α → α → Prop) (S : β → β → Prop) (l : List α)
    (hl : l.Pairwise R)
    (hf : ∀ a b c d, R a b → f a = some c → f b = some d → S c d) :
    (l.filterMap f).Pairwise S := by
  induction l with
  | nil => simp
  | cons a t ih =>
      rcases List.pairwise_cons.mp hl with ⟨ha, ht⟩
      cases hfa : f a with
      | none =>
          rw [List.filterMap_cons, hfa]
          exact ih ht
      | some c =>
          rw [List.filterMap_cons, hfa]
          refine List.pairwise_cons.mpr ⟨?_, ih ht⟩
          intro d hd
          obtain ⟨b, hb, hfb⟩ := List.mem_filterMap.mp hd
          exact hf a b c d (ha b hb) hfa hfb

theorem alookup_dictOf_isSome (rs : List ProductResult) (pid : String) :
    (alookup (dictOf rs) pid).isSome = true ↔ ∃ r ∈ rs, r.product_id = pid := by
  unfold dictOf
  suffices h : ∀ d : List (String × ℚ),
      (alookup (rs.foldl (fun d2 r => updateKey d2 r.product_id r.score) d) pid).isSome = true
        ↔ (alookup d pid).isSome = true ∨ ∃ r ∈ rs, r.product_id = pid by
    have h2 := h []
    simpa [alookup] using h2
  induction rs with
  | nil => intro d; simp
  | cons r t ih =>
      intro d
      simp only [List.foldl_cons]
      rw [ih (updateKey d r.product_id r.score)]
      rw [alookup_updateKey]
      by_cases hp : r.product_id = pid
      · simp [hp]
      · simp only [if_neg hp]
        constructor
        · rintro (h1 | ⟨r2, hm, he⟩)
          · left; exact h1
          · right; exact ⟨r2, List.mem_cons_of_mem _ hm, he⟩
        · rintro (h1 | ⟨r2, hm, he⟩)
          · left; exact h1
          · rcases List.mem_cons.mp hm with h2 | h2
            · exact absurd (h2 ▸ he) hp
            · right; exact ⟨r2, h2, he⟩

theorem mem_keysOf_iff (d : List (String × ℚ)) (pid : String) :
    pid ∈ keysOf d ↔ (alookup d pid).isSome = true := by
  induction d with
  | nil => simp [keysOf, alookup]
  | cons hd tl ih =>
      obtain ⟨k0, v0⟩ := hd
      simp only [keysOf, List.map_cons, List.mem_cons, alookup]
      by_cases h : k0 = pid
      · simp [h]
      · have h2 : ¬ pid = k0 := fun he => h he.symm
        simp only [if_neg h, h2, false_or]
        exact ih

/-- A product absent from a result list contributes modality score 0. -/
theorem modalityScore_eq_zero_of_absent (rs : List ProductResult) (pid : String)
    (h : ∀ r ∈ rs, r.product_id ≠ pid) : modalityScore rs pid = 0 := by
  unfold modalityScore
  cases hl : alookup (dictOf rs) pid with
  | none => rfl
  | some s =>
      exfalso
      have h2 : (alookup (dictOf rs) pid).isSome = true := by rw [hl]; rfl
      obtain ⟨r, hm, he⟩ := (alookup_dictOf_isSome rs pid).mp h2
      exact h r hm he

/-! ## C4: merge_results fusion -/

/-- The union of product ids merge_results iterates over. -/
def unionIds (tr ir : List ProductResult) : List String :=
  keysOf (dictOf tr) ++
    (keysOf (dictOf ir)).filter (fun k => alookup (dictOf tr) k = none)

theorem mem_unionIds_iff (tr ir : List ProductResult) (pid : String) :
    pid ∈ unionIds tr ir ↔
      (∃ r ∈ tr, r.product_id = pid) ∨ (∃ r ∈ ir, r.product_id = pid) := by
  unfold unionIds
  rw [List.mem_append]
  constructor
  · rintro (h1 | h1)
    · left
      exact (alookup_dictOf_isSome tr pid).mp ((mem_keysOf_iff _ pid).mp h1)
    · right
      have h2 := List.mem_of_mem_filter h1
      exact (alookup_dictOf_isSome ir pid).mp ((mem_keysOf_iff _ pid).mp h2)
  · rintro (h1 | h1)
    · left
      exact (mem_keysOf_iff _ pid).mpr ((alookup_dictOf_isSome tr pid).mpr h1)
    · by_cases ht : (alookup (dictOf tr) pid).isSome
      · left
        exact (mem_keysOf_iff _ pid).mpr ht
      · right
        rw [List.mem_filter]
        refine ⟨(mem_keysOf_iff _ pid).mpr ((alookup_dictOf_isSome ir pid).mpr h1), ?_⟩
        simpa using Option.not_isSome_iff_eq_none.mp ht

theorem mem_mergeResults_elim (store : Store) (tr ir : List ProductResult)
    (tw : ℚ) (r : ProductResult)
    (hstore : ∀ pid p, store pid = some p → p.product_id = pid)
    (hr : r ∈ mergeResults store tr ir tw) :
    r.product_id ∈ unionIds tr ir ∧
    r.score = tw * modalityScore tr r.product_id
      + (1 - tw) * modalityScore ir r.product_id := by
  by_cases hemp : (tr.isEmpty && ir.isEmpty) = true
  · simp [mergeResults, hemp] at hr
  · have hcond : (tr.isEmpty && ir.isEmpty) = false := by
      cases h : (tr.isEmpty && ir.isEmpty)
      · rfl
      · exact absurd h hemp
    simp only [mergeResults, hcond, Bool.false_eq_true, if_false] at hr
    obtain ⟨p, hp, hf⟩ := List.mem_filterMap.mp hr
    obtain ⟨prod, hst, hmk⟩ := Option.map_eq_some'.mp hf
    have hpid : r.product_id = p.1 := by
      rw [← hmk]
      exact hstore p.1 prod hst
    have hpm : p ∈ (unionIds tr ir).map (fun pid =>
        (pid, tw * ((alookup (dictOf tr) pid).getD 0)
          + (1 - tw) * ((alookup (dictOf ir) pid).getD 0))) :=
      (sortDescBy_perm (fun p2 : String × ℚ => p2.2) _).subset hp
    obtain ⟨pid, hpidU, hpe⟩ := List.mem_map.mp hpm
    have hp1 : p.1 = pid := by rw [← hpe]
    have hp2 : p.2 = tw * ((alookup (dictOf tr) pid).getD 0)
        + (1 - tw) * ((alookup (dictOf ir) pid).getD 0) := by rw [← hpe]
    have hscore : r.score = p.2 := by rw [← hmk]
    constructor
    · rw [hpid, hp1]; exact hpidU
    · rw [hscore, hp2, hpid, hp1]
      rfl

theorem mem_mergeResults_intro (store : Store) (tr ir : List ProductResult)
    (tw : ℚ) (pid : String)
    (hstore : ∀ pid2 p, store pid2 = some p → p.product_id = pid2)
    (hsome : (store pid).isSome = true)
    (hU : pid ∈ unionIds tr ir) :
    ∃ r ∈ mergeResults store tr ir tw, r.product_id = pid := by
  have hemp : (tr.isEmpty && ir.isEmpty) = false := by
    rcases (mem_unionIds_iff tr ir pid).mp hU with ⟨r, hm, _⟩ | ⟨r, hm, _⟩
    · cases tr with
      | nil => simp at hm
      | cons a l => simp
    · cases ir with
      | nil => simp at hm
      | cons a l => simp [List.isEmpty_cons]
  obtain ⟨prod, hst⟩ := Option.isSome_iff_exists.mp hsome
  refine ⟨{ product_id := prod.product_id, description := prod.description,
            image_path := prod.image_path,
            score := tw * ((alookup (dictOf tr) pid).getD 0)
              + (1 - tw) * ((alookup (dictOf ir) pid).getD 0),
            categories := prod.categories }, ?_, hstore pid prod hst⟩
  simp only [mergeResults, hemp, Bool.false_eq_true, if_false]
  refine List.mem_filterMap.mpr
    ⟨(pid, tw * ((alookup (dictOf tr) pid).getD 0)
        + (1 - tw) * ((alookup (dictOf ir) pid).getD 0)), ?_, ?_⟩
  · refine ((sortDescBy_perm (fun p2 : String × ℚ => p2.2) _).mem_iff).mpr ?_
    exact List.mem_map.mpr ⟨pid, hU, rfl⟩
  · rw [hst]
    rfl

/-- C4: merge_results assigns every product id present in either input
the fused score text_weight × textScore + (1 − text_weight) ×
imageScore, a modality that lacks the product contributing score 0 (no
renormalization); the output ranges over exactly the union of the input
ids (no truncation), is sorted by fused score descending, and is empty
when both inputs are empty. -/
theorem c4_merge_results_fusion (store : Store)
    (tr ir : List ProductResult) (tw : ℚ)
    (hstore : ∀ pid p, store pid = some p → p.product_id = pid)
    (htotal : ∀ r ∈ tr ++ ir, (store r.product_id).isSome = true) :
    (∀ r ∈ mergeResults store tr ir tw,
        r.score = tw * modalityScore tr r.product_id
          + (1 - tw) * modalityScore ir r.product_id) ∧
    (∀ pid, ((∃ r ∈ tr, r.product_id = pid) ∨ (∃ r ∈ ir, r.product_id = pid)) ↔
        ∃ r ∈ mergeResults store tr ir tw, r.product_id = pid) ∧
    (mergeResults store tr ir tw).Pairwise (fun a b => b.score ≤ a.score) ∧
    (∀ (rs : List ProductResult) (pid : String),
        (∀ r ∈ rs, r.product_id ≠ pid) → modalityScore rs pid = 0) ∧
    mergeResults store ([] : List ProductResult) ([] : List ProductResult) tw = [] := by
  refine ⟨?_, ?_, ?_, modalityScore_eq_zero_of_absent, by simp [mergeResults]⟩
  · intro r hr
    exact (mem_mergeResults_elim store tr ir tw r hstore hr).2
  · intro pid
    constructor
    · intro hex
      have hU : pid ∈ unionIds tr ir := (mem_unionIds_iff tr ir pid).mpr hex
      have hsome : (store pid).isSome = true := by
        rcases hex with ⟨r, hm, he⟩ | ⟨r, hm, he⟩
        · rw [← he]; exact htotal r (List.mem_append_left _ hm)
        · rw [← he]; exact htotal r (List.mem_append_right _ hm)
      exact mem_mergeResults_intro store tr ir tw pid hstore hsome hU
    · rintro ⟨r, hm, he⟩
      have h1 := (mem_mergeResults_elim store tr ir tw r hstore hm).1
      rw [he] at h1
      exact (mem_unionIds_iff tr ir pid).mp h1
  · by_cases hemp : (tr.isEmpty && ir.isEmpty) = true
    · simp [mergeResults, hemp]
    · have hcond : (tr.isEmpty && ir.isEmpty) = false := by
        cases h : (tr.isEmpty && ir.isEmpty)
        · rfl
        · exact absurd h hemp
      simp only [mergeResults, hcond, Bool.false_eq_true, if_false]
      refine pairwise_filterMap _ (fun a b => b.2 ≤ a.2) _ _
        (sortDescBy_pairwise _ _) ?_
      intro a b c d hR hfa hfb
      obtain ⟨pa, _, hma⟩ := Option.map_eq_some'.mp hfa
      obtain ⟨pb, _, hmb⟩ := Option.map_eq_some'.mp hfb
      have hca : c.score = a.2 := by rw [← hma]
      have hdb : d.score = b.2 := by rw [← hmb]
      rw [hca, hdb]
      exact hR

/-- Witness for C4: product P at text score 0.9, absent from image
results, with text_weight 0.3 — P appears in the merged output and the
fused formula evaluates to 0.27. -/
theorem c4_merge_results_fusion_witness :
    (∃ r ∈ mergeResults totalStore
        [(⟨"P", "d", "i", 9/10, []⟩ : ProductResult)] [] (3/10),
      r.product_id = "P") ∧
    3/10 * modalityScore [(⟨"P", "d", "i", 9/10, []⟩ : ProductResult)] "P"
      + (1 - 3/10) * modalityScore [] "P" = 27/100 := by
  constructor
  · refine ((c4_merge_results_fusion totalStore
        [(⟨"P", "d", "i", 9/10, []⟩ : ProductResult)] [] (3/10)
        (by
          intro pid p hp
          simp only [totalStore, Option.some.injEq] at hp
          rw [← hp])
        (by intro r hm; simp [totalStore])).2.1 "P").mp ?_
    exact Or.inl ⟨_, List.mem_cons_self _ _, rfl⟩
  · have h1 : modalityScore [(⟨"P", "d", "i", 9/10, []⟩ : ProductResult)] "P" = 9/10 := rfl
    have h2 : modalityScore ([] : List ProductResult) "P" = 0 := rfl
    rw [h1, h2]
    norm_num

/-! ## C8: average rank -/

theorem firstRelevantRank_eq_none_iff (ranked rel : List String) :
    firstRelevantRank ranked rel = none ↔ ∀ p ∈ ranked, p ∉ rel := by
  induction ranked with
  | nil => simp [firstRelevantRank]
  | cons a rest ih =>
      unfold firstRelevantRank
      by_cases ha : a ∈ rel
      · simp [ha]
      · simp [ha, Option.map_eq_none', ih]

theorem firstRelevantRank_eq_some_iff (ranked rel : List String) (k : Nat) :
    firstRelevantRank ranked rel = some k ↔
      1 ≤ k ∧ (∀ p ∈ ranked.take (k - 1), p ∉ rel) ∧
        ∃ p, ranked[k - 1]? = some p ∧ p ∈ rel := by
  induction ranked generalizing k with
  | nil => simp [firstRelevantRank]
  | cons a rest ih =>
      unfold firstRelevantRank
      by_cases ha : a ∈ rel
      · rw [if_pos ha]
        constructor
        · intro h
          have hk : k = 1 := by
            have := Option.some.inj h
            omega
          subst hk
          exact ⟨le_refl 1, by simp, a, by simp, ha⟩
        · rintro ⟨hk1, htake, p, hget, hp⟩
          rcases Nat.lt_or_ge k 2 with hk2 | hk2
          · have : k = 1 := by omega
            rw [this]
          · exfalso
            have hmem : a ∈ (a :: rest).take (k - 1) := by
              have h1 : k - 1 = (k - 2) + 1 := by omega
              rw [h1, List.take_succ_cons]
              exact List.mem_cons_self _ _
            exact htake a hmem ha
      · rw [if_neg ha]
        cases k with
        | zero =>
            simp only [Option.map_eq_some']
            constructor
            · rintro ⟨k0, _, hk0⟩
              omega
            · rintro ⟨h1, _⟩
              omega
        | succ k0 =>
            rw [show Nat.succ k0 - 1 = k0 from rfl]
            constructor
            · intro h
              obtain ⟨k1, hk1, hk1e⟩ := Option.map_eq_some'.mp h
              have hk10 : k1 = k0 := by omega
              rw [hk10] at hk1
              obtain ⟨h1, htake, p, hget, hp⟩ := (ih k0).mp hk1
              refine ⟨by omega, ?_, p, ?_, hp⟩
              · intro q hq
                have h2 : k0 = (k0 - 1) + 1 := by omega
                rw [h2, List.take_succ_cons] at hq
                rcases List.mem_cons.mp hq with hq1 | hq1
                · rw [hq1]; exact ha
                · exact htake q hq1
              · have h2 : k0 = (k0 - 1) + 1 := by omega
                rw [h2]
                simpa using hget
            · rintro ⟨_, htake, p, hget, hp⟩
              cases k0 with
              | zero =>
                  simp at hget
                  rw [hget] at ha
                  exact absurd hp ha
              | succ k1 =>
                  rw [Option.map_eq_some']
                  refine ⟨k1 + 1, (ih (k1 + 1)).mpr ⟨by omega, ?_, p, ?_, hp⟩, rfl⟩
                  · intro q hq
                    refine htake q ?_
                    rw [List.take_succ_cons]
                    exact List.mem_cons_of_mem _ (by simpa using hq)
                  · simpa using hget

/-- The C8 ground truth: query 0 expects z, query 1 expects w. -/
def c8gt : Nat → List String := fun i =>
  if i = 0 then ["z"] else if i = 1 then ["w"] else []

/-- The second C8 ground truth: query 0 expects c (found at rank 3),
query 1 expects d (found at rank 1), query 2 expects nothing. -/
def c8gt2 : Nat → List String := fun i =>
  if i = 0 then ["c"] else if i = 1 then ["d"] else []

/-- C8: calculate_average_rank averages, over exactly the queries whose
ranking contains a relevant id, the 1-based rank of the first relevant
id (first conjunct characterizes that rank declaratively; the concrete
run with first-relevant ranks 3 and 1 and one no-find query averages to
2, the no-find query being excluded rather than counted); when no query
finds any relevant id it returns the infinite sentinel, which differs
from every finite value, 0 included — rankings x/y against ground truth
z/w give the sentinel. -/
theorem c8_average_rank_spec :
    (∀ (ranked rel : List String) (k : Nat),
        firstRelevantRank ranked rel = some k ↔
          1 ≤ k ∧ (∀ p ∈ ranked.take (k - 1), p ∉ rel) ∧
            ∃ p, ranked[k - 1]? = some p ∧ p ∈ rel) ∧
    (∀ (rankings : List (List String)) (gt : Nat → List String),
        (∀ (i : Nat) (r : List String), rankings[i]? = some r →
          ∀ pid ∈ r, pid ∉ gt i) →
        calculate_average_rank rankings gt = AvgRank.infinite) ∧
    (∀ (rankings : List (List String)) (gt : Nat → List String),
        (∃ (i : Nat) (r : List String), rankings[i]? = some r ∧
          ∃ pid ∈ r, pid ∈ gt i) →
        ∃ q : ℚ, calculate_average_rank rankings gt = AvgRank.finite q) ∧
    (∀ q : ℚ, AvgRank.infinite ≠ AvgRank.finite q) ∧
    calculate_average_rank [["x"], ["y"]] c8gt = AvgRank.infinite ∧
    calculate_average_rank [["a", "b", "c"], ["d"], ["e"]] c8gt2 = AvgRank.finite 2 := by
  refine ⟨firstRelevantRank_eq_some_iff, ?_, ?_, ?_, ?_, ?_⟩
  · intro rankings gt hnone
    simp only [calculate_average_rank]
    have hnil : rankings.enum.filterMap
        (fun p => firstRelevantRank p.2 (gt p.1)) = [] := by
      rw [List.filterMap_eq_nil_iff]
      intro p hp
      have hg : rankings[p.1]? = some p.2 := by
        have := List.mem_enum_iff_getElem?.mp hp
        simpa using this
      exact (firstRelevantRank_eq_none_iff p.2 (gt p.1)).mpr (hnone p.1 p.2 hg)
    rw [hnil]
    rfl
  · intro rankings gt hex
    obtain ⟨i, r, hget, pid, hpid, hrel⟩ := hex
    simp only [calculate_average_rank]
    have hne : rankings.enum.filterMap
        (fun p => firstRelevantRank p.2 (gt p.1)) ≠ [] := by
      intro hnil
      have hall := List.forall_none_of_filterMap_eq_nil hnil (i, r)
        (List.mem_enum_iff_getElem?.mpr (by simpa using hget))
      exact (firstRelevantRank_eq_none_iff r (gt i)).mp hall pid hpid hrel
    have hb : (rankings.enum.filterMap
        (fun p => firstRelevantRank p.2 (gt p.1))).isEmpty = false := by
      cases hc : (rankings.enum.filterMap
          (fun p => firstRelevantRank p.2 (gt p.1))).isEmpty
      · rfl
      · exact absurd (List.isEmpty_iff.mp hc) hne
    rw [hb]
    exact ⟨_, rfl⟩
  · intro q h
    exact AvgRank.noConfusion h
  · decide
  · have h1 : ([["a", "b", "c"], ["d"], ["e"]] : List (List String)).enum.filterMap
        (fun p => firstRelevantRank p.2 (c8gt2 p.1)) = [3, 1] := by decide
    simp only [calculate_average_rank]
    rw [h1]
    simp [qsum]
    norm_num

/-- Witness for C8: the no-signal hypothesis discharged at rankings
x/y vs ground truth z/w, and the finite-result hypothesis discharged at
a ranking that does find its relevant id. -/
theorem c8_average_rank_spec_witness :
    calculate_average_rank [["x"], ["y"]] c8gt = AvgRank.infinite ∧
    ∃ q : ℚ, calculate_average_rank [["p"]] (fun _ => ["p"]) = AvgRank.finite q :=
  ⟨c8_average_rank_spec.2.1 [["x"], ["y"]] c8gt (by
      intro i r hget pid hpid hmem
      match i, hget with
      | 0, hget =>
          have hr : ["x"] = r := by simpa using hget
          subst hr
          have hpx : pid = "x" := by simpa using hpid
          rw [hpx] at hmem
          simp [c8gt] at hmem
      | 1, hget =>
          have hr : ["y"] = r := by simpa using hget
          subst hr
          have hpy : pid = "y" := by simpa using hpid
          rw [hpy] at hmem
          simp [c8gt] at hmem
      | (n + 2), hget => simp at hget),
   c8_average_rank_spec.2.2.1 [["p"]] (fun _ => ["p"])
     ⟨0, ["p"], by simp, "p", by simp, by simp⟩⟩

/-! ## C9: baseline regression detection -/

/-- C9: with a positive baseline value, a metric is flagged as a
regression exactly when its relative delta drops strictly below -5%, an
improvement exactly when it rises strictly above +5%, and neutral
exactly when the relative delta stays within ±5% inclusive; the harness
verdict is failure exactly when some metric is flagged as a regression.
Concretely, baseline MRR 0.80 against current 0.70 (relative drop
12.5%) flags MRR — and only MRR — as a regression, and fails the run. -/
theorem c9_baseline_regression_rule :
    (∀ b c : ℚ, 0 < b →
      ((classifyMetric b c = MetricStatus.regression ↔ (c - b) / b < -(1/20)) ∧
       (classifyMetric b c = MetricStatus.improvement ↔ (1/20 : ℚ) < (c - b) / b) ∧
       (classifyMetric b c = MetricStatus.neutral ↔
         -(1/20) ≤ (c - b) / b ∧ (c - b) / b ≤ 1/20))) ∧
    (∀ rows : List (String × ℚ × ℚ),
      compareToBaseline rows = false ↔
        ∃ r ∈ rows, classifyMetric r.2.1 r.2.2 = MetricStatus.regression) ∧
    regressionsOf [("mrr", 4/5, 7/10), ("precision_at_1", 1/2, 1/2)] = ["mrr"] ∧
    compareToBaseline [("mrr", 4/5, 7/10), ("precision_at_1", 1/2, 1/2)] = false := by
  have key : ∀ b c : ℚ, 0 < b →
      (((c - b) / b < -(1/20) ↔ c - b < -(5/100) * b) ∧
       ((1/20 : ℚ) < (c - b) / b ↔ (5/100) * b < c - b) ∧
       ((c - b) / b ≤ 1/20 ↔ c - b ≤ (5/100) * b) ∧
       (-(1/20) ≤ (c - b) / b ↔ -(5/100) * b ≤ c - b)) := by
    intro b c hb
    refine ⟨?_, ?_, ?_, ?_⟩
    · rw [div_lt_iff₀ hb]
      constructor <;> intro h <;> linarith
    · rw [lt_div_iff₀ hb]
      constructor <;> intro h <;> linarith
    · rw [div_le_iff₀ hb]
      constructor <;> intro h <;> linarith
    · rw [le_div_iff₀ hb]
      constructor <;> intro h <;> linarith
  refine ⟨?_, ?_, ?_, ?_⟩
  · intro b c hb
    obtain ⟨e1, e2, e3, e4⟩ := key b c hb
    simp only [classifyMetric]
    by_cases h1 : c - b < -(5/100) * b
    · rw [if_pos h1]
      refine ⟨iff_of_true rfl (e1.mpr h1), ?_, ?_⟩
      · refine iff_of_false (fun h => MetricStatus.noConfusion h) (fun h => ?_)
        have := e2.mp h
        linarith
      · refine iff_of_false (fun h => MetricStatus.noConfusion h) (fun h => ?_)
        have := e4.mp h.1
        linarith
    · rw [if_neg h1]
      by_cases h2 : c - b > (5/100) * b
      · rw [if_pos h2]
        refine ⟨?_, iff_of_true rfl (e2.mpr h2), ?_⟩
        · refine iff_of_false (fun h => MetricStatus.noConfusion h) (fun h => ?_)
          have := e1.mp h
          linarith
        · refine iff_of_false (fun h => MetricStatus.noConfusion h) (fun h => ?_)
          have := e3.mp h.2
          linarith
      · rw [if_neg h2]
        refine ⟨?_, ?_, iff_of_true rfl ⟨e4.mpr (not_lt.mp h1), e3.mpr (not_lt.mp h2)⟩⟩
        · refine iff_of_false (fun h => MetricStatus.noConfusion h) (fun h => ?_)
          have := e1.mp h
          exact h1 this
        · refine iff_of_false (fun h => MetricStatus.noConfusion h) (fun h => ?_)
          have := e2.mp h
          exact h2 this
  · intro rows
    unfold compareToBaseline regressionsOf
    rw [List.isEmpty_eq_false_iff_exists_mem]
    constructor
    · rintro ⟨x, hx⟩
      obtain ⟨r, hr, _⟩ := List.mem_map.mp hx
      exact ⟨r, List.mem_of_mem_filter hr, by
        have := List.of_mem_filter hr
        simpa using this⟩
    · rintro ⟨r, hr, hc⟩
      exact ⟨r.1, List.mem_map.mpr ⟨r, List.mem_filter.mpr ⟨hr, by simpa using hc⟩, rfl⟩⟩
  · have h1 : classifyMetric (4/5) (7/10) = MetricStatus.regression := by
      unfold classifyMetric
      rw [if_pos (by norm_num)]
    have h2 : ¬ classifyMetric (1/2) (1/2) = MetricStatus.regression := by
      unfold classifyMetric
      rw [if_neg (by norm_num), if_neg (by norm_num)]
      exact fun h => MetricStatus.noConfusion h
    have h2n : ¬ classifyMetric 2⁻¹ 2⁻¹ = MetricStatus.regression := by
      simpa using h2
    simp [regressionsOf, List.filter_cons, h1, h2, h2n]
  · have h1 : classifyMetric (4/5) (7/10) = MetricStatus.regression := by
      unfold classifyMetric
      rw [if_pos (by norm_num)]
    have h2 : ¬ classifyMetric (1/2) (1/2) = MetricStatus.regression := by
      unfold classifyMetric
      rw [if_neg (by norm_num), if_neg (by norm_num)]
      exact fun h => MetricStatus.noConfusion h
    have h2n : ¬ classifyMetric 2⁻¹ 2⁻¹ = MetricStatus.regression := by
      simpa using h2
    simp [compareToBaseline, regressionsOf, List.filter_cons, h1, h2, h2n]

/-- Witness for C9: the classification rule applied at baseline 0.80,
current 0.70. -/
theorem c9_baseline_regression_rule_witness :
    (classifyMetric (4/5) (7/10) = MetricStatus.regression ↔
      ((7/10 : ℚ) - 4/5) / (4/5) < -(1/20)) ∧
    (classifyMetric (4/5) (7/10) = MetricStatus.improvement ↔
      (1/20 : ℚ) < ((7/10 : ℚ) - 4/5) / (4/5)) ∧
    (classifyMetric (4/5) (7/10) = MetricStatus.neutral ↔
      -(1/20) ≤ ((7/10 : ℚ) - 4/5) / (4/5) ∧ ((7/10 : ℚ) - 4/5) / (4/5) ≤ 1/20) :=
  c9_baseline_regression_rule.1 (4/5) (7/10) (by norm_num)

/-! ## C10: category accuracy skips empty rankings -/

/-- C10: a query with an empty ranking is skipped by
calculate_category_accuracy exactly like a query with no expected
category — it leaves both the match count and the total unchanged — and
when every query is skipped (empty ranking or no expected category) the
function returns 0. -/
theorem c10_category_accuracy_excludes_empty :
    (∀ (rankings : List (List String)) (qcs : List String)
        (pc : String → Option String) (c : String),
        calculate_category_accuracy ([] :: rankings) (c :: qcs) pc
          = calculate_category_accuracy rankings qcs pc) ∧
    (∀ (rankings : List (List String)) (qcs : List String)
        (pc : String → Option String) (r : List String),
        calculate_category_accuracy (r :: rankings) ("" :: qcs) pc
          = calculate_category_accuracy rankings qcs pc) ∧
    (∀ (rankings : List (List String)) (qcs : List String)
        (pc : String → Option String),
        (∀ p ∈ rankings.zip qcs, p.1 = [] ∨ p.2 = "") →
        calculate_category_accuracy rankings qcs pc = 0) := by
  refine ⟨?_, ?_, ?_⟩
  · intro rankings qcs pc c
    have hstep : ∀ l : List (List String × String),
        List.filter (fun p => !(decide (p.2 = "") || p.1.isEmpty))
            ((([] : List String), c) :: l)
          = List.filter (fun p => !(decide (p.2 = "") || p.1.isEmpty)) l := by
      intro l
      rw [List.filter_cons]
      simp
    simp only [calculate_category_accuracy, List.zip_cons_cons, hstep]
  · intro rankings qcs pc r
    have hstep : ∀ l : List (List String × String),
        List.filter (fun p => !(decide (p.2 = "") || p.1.isEmpty)) ((r, "") :: l)
          = List.filter (fun p => !(decide (p.2 = "") || p.1.isEmpty)) l := by
      intro l
      rw [List.filter_cons]
      simp
    simp only [calculate_category_accuracy, List.zip_cons_cons, hstep]
  · intro rankings qcs pc hall
    simp only [calculate_category_accuracy]
    have hnil : (rankings.zip qcs).filter
        (fun p => !(p.2 = "" || p.1.isEmpty)) = [] := by
      rw [List.filter_eq_nil_iff]
      intro p hp
      rcases hall p hp with h1 | h1
      · simp [h1]
      · simp [h1]
    rw [hnil]
    rfl

/-- Witness for C10: every query skipped (one empty ranking, one empty
expected category) gives accuracy 0. -/
theorem c10_category_accuracy_excludes_empty_witness :
    calculate_category_accuracy [[], ["a"]] ["x", ""] (fun _ => some "x") = 0 :=
  c10_category_accuracy_excludes_empty.2.2 [[], ["a"]] ["x", ""]
    (fun _ => some "x") (by decide)

/-! ## C2: per-query failures in the evaluation harness -/

/-- Benchmark query qA (text), expecting product pa; its execution
raises. -/
def c2qA : BenchQuery := ⟨"qA", "text", ["pa"]⟩

/-- Benchmark query qB (text), expecting product p1; its execution
succeeds. -/
def c2qB : BenchQuery := ⟨"qB", "text", ["p1"]⟩

/-- The retrieval oracle for the C2 run: qA raises (missing image
file), qB returns the single correct hit p1. -/
def c2oracle : ExecOracle := fun q =>
  if q.query_id = "qA" then Except.error "Image not found: img_a"
  else Except.ok ["p1"]

/-- Ground truth for the C2 run: qA has primary positive pa, qB has
primary positive p1. -/
def c2gt : GtStore := fun qid =>
  if qid = "qA" then ["pa"] else if qid = "qB" then ["p1"] else []

/-- The C2 benchmark: the failing query first, the succeeding one
second, both of type text. -/
def c2queries : List BenchQuery := [c2qA, c2qB]

/-- C2: when the first of two text benchmark queries raises, the
exception is caught, the error message is recorded per-query, and the
run continues (first two conjuncts); for the overall metrics the failed
ranking is the empty list and MRR is 1/2 as claimed (third conjunct).
But the per-type rankings omit the failed query instead of keeping an
empty ranking, while the per-type ground truth still enumerates all
queries of that type: the surviving ranking of qB is scored against the
ground truth of qA, and per-type MRR comes out 0 (conjuncts four to
six); treating the failed ranking as empty, as the claim states, would
keep alignment and give per-type MRR 1/2 (last conjunct).  The code
therefore violates the per-type half of the claim. -/
theorem c2_run_evaluation_failure_handling :
    (runEvaluation c2oracle c2queries).all_rankings = [[], ["p1"]] ∧
    (runEvaluation c2oracle c2queries).per_query =
      [PerQueryResult.err "qA" "text" "Image not found: img_a",
       PerQueryResult.ok "qB" "text" ["p1"] (some "p1") true 1] ∧
    calculate_mrr (runEvaluation c2oracle c2queries).all_rankings
      (gtForMetrics c2gt c2queries) = 1/2 ∧
    typeRankings (runEvaluation c2oracle c2queries) "text" = [["p1"]] ∧
    typeGt c2gt c2queries "text" 0 = ["pa"] ∧
    calculate_mrr (typeRankings (runEvaluation c2oracle c2queries) "text")
      (typeGt c2gt c2queries "text") = 0 ∧
    calculate_mrr [[], ["p1"]] (typeGt c2gt c2queries "text") = 1/2 := by
  refine ⟨by decide, by decide, ?_, by decide, by decide, ?_, ?_⟩
  · have hr : (runEvaluation c2oracle c2queries).all_rankings = [[], ["p1"]] := by
      decide
    rw [hr]
    norm_num [calculate_mrr, List.enum, List.enumFrom, qmean, qsum, reciprocalRank,
      show gtForMetrics c2gt c2queries 0 = ["pa"] from by decide,
      show gtForMetrics c2gt c2queries 1 = ["p1"] from by decide,
      show firstRelevantRank [] ["pa"] = none from by decide,
      show firstRelevantRank ["p1"] ["p1"] = some 1 from by decide]
  · have hr : typeRankings (runEvaluation c2oracle c2queries) "text" = [["p1"]] := by
      decide
    rw [hr]
    norm_num [calculate_mrr, List.enum, List.enumFrom, qmean, qsum, reciprocalRank,
      show typeGt c2gt c2queries "text" 0 = ["pa"] from by decide,
      show firstRelevantRank ["p1"] ["pa"] = none from by decide]
  · norm_num [calculate_mrr, List.enum, List.enumFrom, qmean, qsum, reciprocalRank,
      show typeGt c2gt c2queries "text" 0 = ["pa"] from by decide,
      show typeGt c2gt c2queries "text" 1 = ["p1"] from by decide,
      show firstRelevantRank [] ["pa"] = none from by decide,
      show firstRelevantRank ["p1"] ["p1"] = some 1 from by decide]

end Kloth
